import Mathlib

/-!
Shallow embedding of `src/inventory.py`, an Ansible dynamic-inventory
adapter backed by a MySQL table.  Python dictionaries are modelled as
association lists with Python's insertion-order update semantics, Python
strings as Lean `String`, and the handful of Python string primitives the
script uses (`str.split`, `str.startswith`, `sorted`, `%`-formatting,
`datetime.strftime`, `ipaddress.ip_address`) are modelled by structurally
recursive Lean functions so that every definition evaluates inside the
kernel.
-/

/-! ## Python string primitives -/

/-- Auxiliary for `pySplit`: accumulates the current piece (reversed). -/
def splitAux (sep : Char) : List Char → List Char → List (List Char)
  | [], cur => [cur.reverse]
  | c :: rest, cur =>
    if c = sep then cur.reverse :: splitAux sep rest []
    else splitAux sep rest (c :: cur)

/-- Model of Python `s.split(sep)` for a one-character separator: keeps
empty pieces, `""` splits to `[""]`. -/
def pySplit (sep : Char) (s : String) : List String :=
  (splitAux sep s.data []).map String.mk

/-- Model of Python `s.startswith(pre)` (case-sensitive). -/
def pyStartsWith (s pre : String) : Bool := pre.data.isPrefixOf s.data

/-- Model of Python `sep.join(pieces)`. -/
def joinSep (sep : String) : List String → String
  | [] => ""
  | [x] => x
  | x :: y :: xs => x ++ sep ++ joinSep sep (y :: xs)

/-- Lexicographic comparison of char lists by code point, the order Python
uses to compare `str` values. -/
def lexLe : List Char → List Char → Bool
  | [], _ => true
  | _ :: _, [] => false
  | a :: as, b :: bs =>
    if a.toNat < b.toNat then true
    else if b.toNat < a.toNat then false
    else lexLe as bs

/-- Python's `<=` on strings, as a relation. -/
def pyLeR (a b : String) : Prop := lexLe a.data b.data = true

instance : DecidableRel pyLeR := fun a b => by unfold pyLeR; infer_instance

/-- Model of Python `sorted` on a list of strings.  Python's sort is a
stable comparison sort; on strings equal keys are identical strings, so any
correct comparison sort produces the same output list. -/
def sortStrings (l : List String) : List String := l.insertionSort pyLeR

/-! ## Decimal and hexadecimal rendering -/

/-- Fuel-driven decimal digit accumulator (base 10, most significant
first).  Fuel-driven so that the kernel can evaluate it. -/
def decChars' (fuel n : Nat) (acc : List Char) : List Char :=
  match fuel with
  | 0 => acc
  | fuel + 1 =>
    let d := Char.ofNat (48 + n % 10)
    if n < 10 then d :: acc else decChars' fuel (n / 10) (d :: acc)

/-- Decimal digits of `n`, e.g. `decChars 255 = ['2','5','5']`. -/
def decChars (n : Nat) : List Char := decChars' (n + 1) n []

/-- Model of Python `str(n)` for a natural number. -/
def decStr (n : Nat) : String := String.mk (decChars n)

/-- Model of Python `str(n)` for an integer. -/
def intStr (n : Int) : String :=
  if n < 0 then "-" ++ decStr n.natAbs else decStr n.natAbs

/-- Zero-padded decimal rendering, as produced by `strftime` directives
such as `%d` (width 2) and `%Y` (width 4). -/
def padNum (w n : Nat) : String :=
  let d := decChars n
  ⟨List.replicate (w - d.length) '0' ++ d⟩

/-- Fuel-driven lowercase hexadecimal digit accumulator. -/
def hexChars' (fuel n : Nat) (acc : List Char) : List Char :=
  match fuel with
  | 0 => acc
  | fuel + 1 =>
    let m := n % 16
    let d := if m < 10 then Char.ofNat (48 + m) else Char.ofNat (87 + m)
    if n < 16 then d :: acc else hexChars' fuel (n / 16) (d :: acc)

/-- Lowercase hex digits of `n`, e.g. Python `'%x' % n`. -/
def hexChars (n : Nat) : List Char := hexChars' (n + 1) n []

/-- Python `'%x' % n` as a string. -/
def hexStr (n : Nat) : String := String.mk (hexChars n)

/-- A hextet rendered as exactly four lowercase hex digits, as in the
slices of Python's `'%032x' % ip_int`. -/
def padHex4 (n : Nat) : String :=
  let d := hexChars n
  ⟨List.replicate (4 - d.length) '0' ++ d⟩

/-! ## `datetime.strftime` (the directives the script uses) -/

/-- A timestamp value as stored in the `upd` column (a `datetime`). -/
structure Upd where
  year : Nat
  month : Nat
  day : Nat
  hour : Nat
  minute : Nat
  second : Nat
deriving DecidableEq, Repr

/-- One `%`-directive of `strftime`. -/
def strfDirective (t : Upd) : Char → String
  | 'Y' => padNum 4 t.year
  | 'm' => padNum 2 t.month
  | 'd' => padNum 2 t.day
  | 'H' => padNum 2 t.hour
  | 'M' => padNum 2 t.minute
  | 'S' => padNum 2 t.second
  | c => String.mk ['%', c]

/-- Interpreter for a `strftime` format string over its char list. -/
def strftimeGo (t : Upd) : List Char → String
  | [] => ""
  | '%' :: c :: rest => strfDirective t c ++ strftimeGo t rest
  | c :: rest => String.mk [c] ++ strftimeGo t rest

/-- Model of Python `t.strftime(fmt)` for the directives used by the
script. -/
def strftime (fmt : String) (t : Upd) : String := strftimeGo t fmt.data

/-! ## `ipaddress.ip_address`: parsing and the `exploded` form -/

/-- ASCII decimal digit test (Python `str.isdigit` restricted to ASCII, as
`_parse_octet` requires). -/
def isDigitC (c : Char) : Bool := 48 ≤ c.toNat && c.toNat ≤ 57

/-- Hex digit test, as `_parse_hextet` allows (`0-9a-fA-F`). -/
def isHexDigitC (c : Char) : Bool :=
  (48 ≤ c.toNat && c.toNat ≤ 57) ||
  (97 ≤ c.toNat && c.toNat ≤ 102) ||
  (65 ≤ c.toNat && c.toNat ≤ 70)

/-- Value of one hex digit. -/
def hexDigitVal (c : Char) : Nat :=
  if c.toNat ≤ 57 then c.toNat - 48
  else if c.toNat ≤ 70 then c.toNat - 55
  else c.toNat - 87

/-- Value of a decimal digit string (assumed all digits). -/
def decVal (cs : List Char) : Nat := cs.foldl (fun acc c => acc * 10 + (c.toNat - 48)) 0

/-- Value of a hex digit string (assumed all hex digits). -/
def hexVal (cs : List Char) : Nat := cs.foldl (fun acc c => acc * 16 + hexDigitVal c) 0

/-- Model of `IPv4Address._parse_octet`: nonempty, ASCII digits only, at
most three characters, no leading zero, value at most 255. -/
def parseOctet (p : String) : Option Nat :=
  let cs := p.data
  if cs.isEmpty then none
  else if !cs.all isDigitC then none
  else if 3 < cs.length then none
  else if 1 < cs.length && cs.head? = some '0' then none
  else if 255 < decVal cs then none
  else some (decVal cs)

/-- Model of `IPv4Address._ip_int_from_string`: exactly four dot-separated
octets folded big-endian into one integer. -/
def parseIPv4 (s : String) : Option Nat :=
  match pySplit '.' s with
  | [a, b, c, d] => do
    let va ← parseOctet a
    let vb ← parseOctet b
    let vc ← parseOctet c
    let vd ← parseOctet d
    pure (((va * 256 + vb) * 256 + vc) * 256 + vd)
  | _ => none

/-- Model of `IPv6Address._parse_hextet`: hex digits only, one to four
characters. -/
def parseHextet (p : String) : Option Nat :=
  let cs := p.data
  if cs.isEmpty then none
  else if !cs.all isHexDigitC then none
  else if 4 < cs.length then none
  else some (hexVal cs)

/-- Big-endian fold of 16-bit hextets into one integer. -/
def hextetsFold (l : List Nat) : Nat := l.foldl (fun acc h => acc * 65536 + h) 0

/-- Model of `IPv6Address._ip_int_from_string`.  Follows CPython: split on
`:`; at least three parts; an embedded dotted-quad final part is replaced
by its two hextets; at most one empty interior part (`::`), which stands
for the skipped zero hextets; a leading or trailing empty part is only
permitted as half of a leading or trailing `::`. -/
def parseIPv6 (s : String) : Option Nat :=
  let parts0 := pySplit ':' s
  if parts0.length < 3 then none
  else
    let withV4 : Option (List String) :=
      match parts0.getLast? with
      | some last =>
        if last.data.contains '.' then
          match parseIPv4 last with
          | some v4 => some (parts0.dropLast ++ [hexStr (v4 / 65536 % 65536), hexStr (v4 % 65536)])
          | none => none
        else some parts0
      | none => none
    match withV4 with
    | none => none
    | some parts =>
      let n := parts.length
      let interior := (parts.drop 1).dropLast
      let emptyCount := interior.countP (fun p => p = "")
      if 2 ≤ emptyCount then none
      else if emptyCount = 1 then
        let skipIdx := 1 + interior.findIdx (fun p => p = "")
        let hiOpt : Option Nat :=
          if parts.head? = some "" then
            (if skipIdx - 1 = 0 then some 0 else none)
          else some skipIdx
        let loOpt : Option Nat :=
          if parts.getLast? = some "" then
            (if n - skipIdx - 1 - 1 = 0 then some 0 else none)
          else some (n - skipIdx - 1)
        match hiOpt, loOpt with
        | some hi, some lo =>
          if 8 ≤ hi + lo then none
          else do
            let his ← (parts.take hi).mapM parseHextet
            let los ← (parts.drop (n - lo)).mapM parseHextet
            pure (hextetsFold (his ++ List.replicate (8 - (hi + lo)) 0 ++ los))
        | _, _ => none
      else
        if n ≠ 8 then none
        else if parts.head? = some "" then none
        else if parts.getLast? = some "" then none
        else (parts.mapM parseHextet).map hextetsFold

/-- A parsed address object: `ipaddress.IPv4Address` or
`ipaddress.IPv6Address`, represented by the packed integer. -/
inductive IPAddr where
  | v4 : Nat → IPAddr
  | v6 : Nat → IPAddr
deriving DecidableEq, Repr

/-- Model of `ipaddress.ip_address(s)`: try IPv4 first, then IPv6. -/
def ipParse (s : String) : Option IPAddr :=
  match parseIPv4 s with
  | some n => some (.v4 n)
  | none => (parseIPv6 s).map .v6

/-- Dotted-quad rendering of an IPv4 integer (`IPv4Address.exploded`). -/
def explode4 (n : Nat) : String :=
  joinSep "." [decStr (n / 16777216 % 256), decStr (n / 65536 % 256),
               decStr (n / 256 % 256), decStr (n % 256)]

/-- The eight 4-hex-digit groups of `IPv6Address.exploded`, most
significant first. -/
def explode6Parts (n : Nat) : List String :=
  (List.range 8).map (fun i => padHex4 (n / 65536 ^ (7 - i) % 65536))

/-- Fully-expanded rendering of an IPv6 integer (`IPv6Address.exploded`):
eight colon-separated zero-padded hex groups. -/
def explode6 (n : Nat) : String := joinSep ":" (explode6Parts n)

/-- Model of the `.exploded` property used by `build_hostvars`. -/
def IPAddr.exploded : IPAddr → String
  | .v4 n => explode4 n
  | .v6 n => explode6 n

/-! ## Rows, the `Host` class, and `process_hosts` -/

/-- One raw row of the `server_inventory` table, with storage-native
types: `enabled` is an integer boolean, `features`/`label`/`groups` are
nullable strings, `upd` is a datetime. -/
structure Row where
  id : Int
  fqdn : String
  enabled : Int
  features : Option String
  ipaddr : String
  label : Option String
  groups : Option String
  upd : Upd
deriving DecidableEq, Repr

/-- The normalized `Host` entity produced by `Host.__init__`. -/
structure Host where
  id : Int
  fqdn : String
  upd : Upd
  enabled : Bool
  ipaddr : IPAddr
  groups : List String
  features : List String
  label : String
deriving DecidableEq, Repr

/-- Python truthiness of a nullable string column: `None` and `""` are
falsy. -/
def optTruthy : Option String → Bool
  | none => false
  | some s => s ≠ ""

/-- Model of `Host.__init__`: boolean coercion, `ipaddress.ip_address`
(failure aborts construction), CSV split of `groups`/`features` guarded by
truthiness, `label` defaulted to `""`. -/
def mkHost (row : Row) : Option Host :=
  (ipParse row.ipaddr).map (fun a =>
    { id := row.id
      fqdn := row.fqdn
      upd := row.upd
      enabled := row.enabled ≠ 0
      ipaddr := a
      groups := if optTruthy row.groups then pySplit ',' (row.groups.getD "") else []
      features := if optTruthy row.features then pySplit ',' (row.features.getD "") else []
      label := if optTruthy row.label then row.label.getD "" else "" })

/-- Model of `process_hosts`: normalize every row; any construction
failure aborts the whole invocation. -/
def process_hosts : List Row → Option (List Host)
  | [] => some []
  | r :: rs =>
    match mkHost r, process_hosts rs with
    | some h, some hs => some (h :: hs)
    | _, _ => none

/-! ## Python dictionaries as association lists -/

/-- Dictionary lookup (`d[k]` / `KeyError` as `none`). -/
def alookup {α : Type} (k : String) : List (String × α) → Option α
  | [] => none
  | (k', v) :: rest => if k' = k then some v else alookup k rest

/-- Dictionary assignment `d[k] = v`: updating an existing key keeps its
position, a new key is appended (Python insertion order). -/
def dictInsert {α : Type} (k : String) (v : α) : List (String × α) → List (String × α)
  | [] => [(k, v)]
  | (k', v') :: rest => if k' = k then (k', v) :: rest else (k', v') :: dictInsert k v rest

/-- The keys of a dictionary, in insertion order (`d.keys()`). -/
def dkeys {α : Type} (l : List (String × α)) : List String := l.map Prod.fst

/-- One `groups[group]['hosts'].append(host.fqdn)` step of `build_groups`,
creating the group entry on first appearance. -/
def addToGroup (g f : String) : List (String × List String) → List (String × List String)
  | [] => [(g, [f])]
  | (g', hs) :: rest =>
    if g' = g then (g', hs ++ [f]) :: rest else (g', hs) :: addToGroup g f rest

/-! ## The inventory builders -/

/-- The per-host attribute dictionary stored in hostvars: `host.__dict__`
minus `fqdn`, with `upd` rendered by `strftime` and `ipaddr` by
`.exploded`. -/
structure HostVars where
  id : Int
  upd : String
  enabled : Bool
  ipaddr : String
  groups : List String
  features : List String
  label : String
deriving DecidableEq, Repr

/-- The body of the `build_hostvars` loop for one host. -/
def hostvarsOf (h : Host) : HostVars :=
  { id := h.id
    upd := strftime "%Y-%d-%m %H:%M:%S" h.upd
    enabled := h.enabled
    ipaddr := h.ipaddr.exploded
    groups := h.groups
    features := h.features
    label := h.label }

/-- Model of `build_hostvars`: `hostvars[host.fqdn] = host_dict` over all
hosts in order. -/
def build_hostvars (hosts : List Host) : List (String × HostVars) :=
  hosts.foldl (fun acc h => dictInsert h.fqdn (hostvarsOf h) acc) []

/-- Model of `build_groups`: for each host in order, for each of its
groups in order, append the fqdn to that group's member list. -/
def build_groups (hosts : List Host) : List (String × List String) :=
  hosts.foldl (fun acc h => h.groups.foldl (fun acc' g => addToGroup g h.fqdn acc') acc) []

/-- A value of the final inventory document: either a group entry
`{'hosts': [...]}` or the reserved `_meta` entry `{'hostvars': {...}}`. -/
inductive InvEntry where
  | group : List String → InvEntry
  | meta : List (String × HostVars) → InvEntry
deriving DecidableEq, Repr

/-- Model of `build_ansible_inventory`: a shallow copy of `groups` with
`inventory['_meta'] = {'hostvars': hostvars}` assigned on top. -/
def build_ansible_inventory (groups : List (String × List String))
    (hostvars : List (String × HostVars)) : List (String × InvEntry) :=
  dictInsert "_meta" (.meta hostvars) (groups.map (fun p => (p.1, InvEntry.group p.2)))

/-! ## The Selector (`main`, read path) -/

/-- Model of the `get host NAME` branch of `main` for `NAME != 'all'`:
collect the fqdns of hosts whose fqdn starts with `NAME`, then build the
subset dictionary by indexing into `hostvars` (`none` models a
`KeyError`). -/
def selectHost (hosts : List Host) (name : String) : Option (List (String × HostVars)) :=
  let hostvars := build_hostvars hosts
  if name = "all" then some hostvars
  else
    let host_subset := (hosts.filter (fun h => pyStartsWith h.fqdn name)).map Host.fqdn
    host_subset.foldlM (fun acc f => (alookup f hostvars).map (fun v => dictInsert f v acc)) []

/-- Outcome of the `get group NAME` branch of `main`: the member list, or
the printed not-found report. -/
inductive GroupResult where
  | found : List String → GroupResult
  | notFound : String → GroupResult
deriving DecidableEq, Repr

/-- Model of the `get group NAME` branch: `groups[name]['hosts']` with the
`KeyError` handler printing `No group matching NAME` and exiting 1. -/
def selectGroup (hosts : List Host) (name : String) : GroupResult :=
  match alookup name (build_groups hosts) with
  | some ms => .found ms
  | none => .notFound ("No group matching " ++ name)

/-- Process exit status of the `get group NAME` branch. -/
def GroupResult.exitStatus : GroupResult → Nat
  | .found _ => 0
  | .notFound _ => 1

/-- Model of `dump` on a list-shaped value: `sorted(data)` printed one
element per line. -/
def dumpLines (data : List String) : List String := sortStrings data

/-- Model of the `get group --list` branch: `dump(groups.keys())`. -/
def groupListLines (hosts : List Host) : List String :=
  dumpLines (dkeys (build_groups hosts))

/-! ## The Host Writer (`add_host`) -/

/-- The parsed `add` subcommand arguments. -/
structure AddArgs where
  name : String
  ipaddr : Option String
  groups : Option String
  features : Option String
  label : Option String
  disabled : Bool
deriving DecidableEq, Repr

/-- A value in the `VALUES` list: Python strings are quoted, other values
are rendered with `str`. -/
inductive SqlValue where
  | str : String → SqlValue
  | num : Int → SqlValue
deriving DecidableEq, Repr

/-- Rendering of one value in the insert statement. -/
def renderVal : SqlValue → String
  | .str s => "'" ++ s ++ "'"
  | .num n => intStr n

/-- The insert statement `add_host` builds from its field and value
lists. -/
def mkInsertQuery (fields : List String) (values : List SqlValue) : String :=
  "INSERT INTO `server_inventory` (" ++
    joinSep "," (fields.map (fun f => "`" ++ f ++ "`")) ++
  ") VALUES (" ++ joinSep "," (values.map renderVal) ++ ");"

/-- Outcome of `add_host`: either the insert statement handed to
`write_query`, or the printed resolution error followed by `sys.exit(1)`
with no insert issued. -/
inductive AddOutcome where
  | inserted : String → AddOutcome
  | resolutionError : String → AddOutcome
deriving DecidableEq, Repr

/-- Model of `add_host`.  `resolver` stands for `socket.gethostbyname`:
`.ok ip` is a successful lookup, `.error msg` a `socket.gaierror` whose
`args[1]` is `msg`. -/
def add_host (resolver : String → Except String String) (a : AddArgs) : AddOutcome :=
  let ipRes : Except String String :=
    if optTruthy a.ipaddr then .ok (a.ipaddr.getD "") else resolver a.name
  match ipRes with
  | .error msg => .resolutionError ("ERROR: " ++ msg)
  | .ok ip =>
    let fields := ["fqdn", "ipaddr"] ++
      (if optTruthy a.groups then ["groups"] else []) ++
      (if optTruthy a.features then ["features"] else []) ++
      (if optTruthy a.label then ["label"] else []) ++
      (if a.disabled then ["enabled"] else [])
    let values : List SqlValue := [.str a.name, .str ip] ++
      (if optTruthy a.groups then [.str (a.groups.getD "")] else []) ++
      (if optTruthy a.features then [.str (a.features.getD "")] else []) ++
      (if optTruthy a.label then [.str (a.label.getD "")] else []) ++
      (if a.disabled then [.num 0] else [])
    .inserted (mkInsertQuery fields values)

/-- Process exit status of `add_host`. -/
def AddOutcome.exitStatus : AddOutcome → Nat
  | .inserted _ => 0
  | .resolutionError _ => 1

/-- Effect of an `add_host` outcome on the store, modelled as the list of
executed insert statements: a resolution error issues nothing. -/
def applyOutcome (store : List String) : AddOutcome → List String
  | .inserted q => store ++ [q]
  | .resolutionError _ => store

/-! ## Specification-side helpers used to state the claims -/

/-- The `(group, fqdn)` append events of `build_groups`, flattened in
program order. -/
def groupPairs (hosts : List Host) : List (String × String) :=
  hosts.flatMap (fun h => h.groups.map (fun g => (g, h.fqdn)))

/-- `build_groups` as a plain recursion over the flattened append
events. -/
def insertAll : List (String × String) → List (String × List String) → List (String × List String)
  | [], acc => acc
  | p :: ps, acc => insertAll ps (addToGroup p.1 p.2 acc)

/-- The values appended to group `g` by a list of append events. -/
def sel (g : String) (ps : List (String × String)) : List String :=
  (ps.filter (fun p => p.1 = g)).map Prod.snd

/-- The member fqdns of group `g`, listed in host input order (a host
appears once per occurrence of `g` in its `groups` list). -/
def memberSeq (g : String) (hosts : List Host) : List String :=
  hosts.flatMap (fun h => (h.groups.filter (fun g' => g' = g)).map (fun _ => h.fqdn))

/-- First-appearance deduplication relative to a list of already-seen
keys. -/
def dedupFO' (seen : List String) : List String → List String
  | [] => []
  | x :: xs => if x ∈ seen then dedupFO' seen xs else x :: dedupFO' (x :: seen) xs

/-- First-appearance deduplication: the insertion order of dictionary
keys. -/
def dedupFO (l : List String) : List String := dedupFO' [] l

/-! ## Lemmas: the string order -/

/-- Characters with equal code points are equal. -/
theorem charToNat_inj {a b : Char} (h : a.toNat = b.toNat) : a = b := by
  exact_mod_cast Char.ofNat_toNat a ▸ Char.ofNat_toNat b ▸ congrArg Char.ofNat h

/-- `lexLe` is total. -/
theorem lexLe_total : ∀ a b : List Char, lexLe a b = true ∨ lexLe b a = true := by
  intro a
  induction a with
  | nil => intro b; left; simp [lexLe]
  | cons x xs ih =>
    intro b
    cases b with
    | nil => right; simp [lexLe]
    | cons y ys =>
      rcases Nat.lt_trichotomy x.toNat y.toNat with h | h | h
      · left; simp [lexLe, h]
      · rcases ih ys with h' | h'
        · left; simp [lexLe, h, Nat.lt_irrefl, h']
        · right; simp [lexLe, h, Nat.lt_irrefl, h']
      · right; simp [lexLe, h]

/-- `lexLe` is transitive. -/
theorem lexLe_trans : ∀ a b c : List Char,
    lexLe a b = true → lexLe b c = true → lexLe a c = true := by
  intro a
  induction a with
  | nil => intro b c _ _; simp [lexLe]
  | cons x xs ih =>
    intro b c hab hbc
    cases b with
    | nil => simp [lexLe] at hab
    | cons y ys =>
      cases c with
      | nil => simp [lexLe] at hbc
      | cons z zs =>
        simp only [lexLe] at hab hbc ⊢
        by_cases h₁ : x.toNat < y.toNat
        · by_cases h₂ : y.toNat < z.toNat
          · simp [Nat.lt_trans h₁ h₂]
          · by_cases h₃ : z.toNat < y.toNat
            · simp [h₂, h₃] at hbc
            · have hxz : x.toNat < z.toNat := by omega
              simp [hxz]
        · by_cases h₄ : y.toNat < x.toNat
          · simp [h₁, h₄] at hab
          · by_cases h₂ : y.toNat < z.toNat
            · have hxz : x.toNat < z.toNat := by omega
              simp [hxz]
            · by_cases h₃ : z.toNat < y.toNat
              · simp [h₂, h₃] at hbc
              · simp [h₁, h₄] at hab
                simp [h₂, h₃] at hbc
                have hxz1 : ¬ x.toNat < z.toNat := by omega
                have hxz2 : ¬ z.toNat < x.toNat := by omega
                simp [hxz1, hxz2]
                exact ih ys zs hab hbc

/-- `lexLe` is antisymmetric. -/
theorem lexLe_antisymm : ∀ a b : List Char,
    lexLe a b = true → lexLe b a = true → a = b := by
  intro a
  induction a with
  | nil =>
    intro b _ hba
    cases b with
    | nil => rfl
    | cons y ys => simp [lexLe] at hba
  | cons x xs ih =>
    intro b hab hba
    cases b with
    | nil => simp [lexLe] at hab
    | cons y ys =>
      simp only [lexLe] at hab hba
      rcases Nat.lt_trichotomy x.toNat y.toNat with h | h | h
      · simp [h, Nat.lt_irrefl] at hba
        omega
      · have hc : x = y := charToNat_inj h
        subst hc
        simp [Nat.lt_irrefl] at hab hba
        rw [ih ys hab hba]
      · simp [h, Nat.lt_irrefl] at hab
        omega

/-! ## Lemmas: dictionaries -/

/-- Lookup after assignment. -/
theorem alookup_dictInsert {α : Type} (k k' : String) (v : α) (l : List (String × α)) :
    alookup k (dictInsert k' v l) = if k' = k then some v else alookup k l := by
  induction l with
  | nil => simp [dictInsert, alookup]
  | cons p rest ih =>
    obtain ⟨k₀, v₀⟩ := p
    by_cases h₀ : k₀ = k'
    · subst h₀
      by_cases h₁ : k₀ = k <;> simp [dictInsert, alookup, h₁]
    · by_cases h₁ : k₀ = k
      · subst h₁
        have : ¬ k' = k₀ := fun h => h₀ h.symm
        simp [dictInsert, alookup, h₀, this]
      · simp [dictInsert, alookup, h₀, h₁, ih]

/-- Keys of a cons. -/
theorem dkeys_cons {α : Type} (p : String × α) (l : List (String × α)) :
    dkeys (p :: l) = p.1 :: dkeys l := rfl

/-- Keys of an append. -/
theorem dkeys_append {α : Type} (l₁ l₂ : List (String × α)) :
    dkeys (l₁ ++ l₂) = dkeys l₁ ++ dkeys l₂ := by
  simp [dkeys]

/-- Assigning a fresh key appends it. -/
theorem dictInsert_of_notMem {α : Type} (k : String) (v : α) (l : List (String × α))
    (h : k ∉ dkeys l) : dictInsert k v l = l ++ [(k, v)] := by
  induction l with
  | nil => simp [dictInsert]
  | cons p rest ih =>
    obtain ⟨k₀, v₀⟩ := p
    rw [dkeys_cons, List.mem_cons] at h
    push_neg at h
    have h₁ : ¬ k₀ = k := fun hh => h.1 hh.symm
    simp [dictInsert, h₁, ih h.2]

/-- Keys after assignment. -/
theorem dkeys_dictInsert {α : Type} (k : String) (v : α) (l : List (String × α)) :
    dkeys (dictInsert k v l) = if k ∈ dkeys l then dkeys l else dkeys l ++ [k] := by
  induction l with
  | nil => simp [dictInsert, dkeys]
  | cons p rest ih =>
    obtain ⟨k₀, v₀⟩ := p
    by_cases h₀ : k₀ = k
    · subst h₀; simp [dictInsert, dkeys]
    · have h₀' : ¬ k = k₀ := fun hh => h₀ hh.symm
      simp only [dictInsert, if_neg h₀, dkeys_cons] at ih ⊢
      rw [ih]
      by_cases h₁ : k ∈ dkeys rest
      · simp [h₁, h₀', List.mem_cons]
      · simp [h₁, h₀', List.mem_cons]

/-- A dictionary member with nodup keys is found by lookup. -/
theorem alookup_of_mem_nodup {α : Type} (l : List (String × α)) (p : String × α)
    (hnd : (dkeys l).Nodup) (hm : p ∈ l) : alookup p.1 l = some p.2 := by
  induction l with
  | nil => simp at hm
  | cons q rest ih =>
    obtain ⟨k₀, v₀⟩ := q
    rw [dkeys_cons, List.nodup_cons] at hnd
    rcases List.mem_cons.mp hm with h | h
    · rw [h]; simp [alookup]
    · have hk : ¬ k₀ = p.1 := by
        intro hh
        have hmem : p.1 ∈ dkeys rest := List.mem_map_of_mem Prod.fst h
        rw [← hh] at hmem
        exact hnd.1 hmem
      simp [alookup, hk]
      exact ih hnd.2 h

/-- Lookup in a mapped association list. -/
theorem alookup_map_value {α β : Type} (f : α → β) (l : List (String × α)) (k : String) :
    alookup k (l.map (fun p => (p.1, f p.2))) = (alookup k l).map f := by
  induction l with
  | nil => simp [alookup]
  | cons p rest ih =>
    by_cases h : p.1 = k <;> simp [alookup, h, ih]

/-! ## Lemmas: `build_groups` as a recursion over append events -/

/-- Lookup after one group-append step. -/
theorem alookup_addToGroup (g f g' : String) (acc : List (String × List String)) :
    alookup g' (addToGroup g f acc) =
      if g = g' then some ((alookup g' acc).getD [] ++ [f]) else alookup g' acc := by
  induction acc with
  | nil =>
    by_cases h : g = g' <;> simp [addToGroup, alookup, h]
  | cons p rest ih =>
    obtain ⟨g₀, hs⟩ := p
    by_cases h₀ : g₀ = g
    · subst h₀
      by_cases h₁ : g₀ = g' <;> simp [addToGroup, alookup, h₁]
    · by_cases h₁ : g₀ = g'
      · subst h₁
        have : ¬ g = g₀ := fun hh => h₀ hh.symm
        simp [addToGroup, alookup, h₀, this]
      · simp [addToGroup, alookup, h₀, h₁, ih]

/-- Keys after one group-append step. -/
theorem dkeys_addToGroup (g f : String) (acc : List (String × List String)) :
    dkeys (addToGroup g f acc) =
      if g ∈ dkeys acc then dkeys acc else dkeys acc ++ [g] := by
  induction acc with
  | nil => simp [addToGroup, dkeys]
  | cons p rest ih =>
    obtain ⟨g₀, hs⟩ := p
    by_cases h₀ : g₀ = g
    · subst h₀; simp [addToGroup, dkeys]
    · have h₀' : ¬ g = g₀ := fun hh => h₀ hh.symm
      simp only [addToGroup, if_neg h₀, dkeys_cons] at ih ⊢
      rw [ih]
      by_cases h₁ : g ∈ dkeys rest
      · simp [h₁, h₀', List.mem_cons]
      · simp [h₁, h₀', List.mem_cons]

/-- `insertAll` over concatenated event lists. -/
theorem insertAll_append (ps qs : List (String × String)) (acc : List (String × List String)) :
    insertAll (ps ++ qs) acc = insertAll qs (insertAll ps acc) := by
  induction ps generalizing acc with
  | nil => simp [insertAll]
  | cons p ps ih => simp [insertAll, ih]

/-- The inner `for group in host.groups` loop as `insertAll`. -/
theorem foldl_addToGroup_eq (gs : List String) (f : String) (acc : List (String × List String)) :
    gs.foldl (fun acc' g => addToGroup g f acc') acc =
      insertAll (gs.map (fun g => (g, f))) acc := by
  induction gs generalizing acc with
  | nil => simp [insertAll]
  | cons g gs ih => simp [insertAll, ih]

/-- `build_groups` is `insertAll` over the flattened append events. -/
theorem build_groups_eq (hosts : List Host) :
    build_groups hosts = insertAll (groupPairs hosts) [] := by
  suffices h : ∀ acc, hosts.foldl
      (fun acc h => h.groups.foldl (fun acc' g => addToGroup g h.fqdn acc') acc) acc =
      insertAll (groupPairs hosts) acc from h []
  induction hosts with
  | nil => intro acc; simp [groupPairs, insertAll]
  | cons h hs ih =>
    intro acc
    simp only [List.foldl_cons, groupPairs, List.flatMap_cons, insertAll_append]
    rw [ih, foldl_addToGroup_eq]
    rfl

/-- `sel` over a cons. -/
theorem sel_cons (g : String) (p : String × String) (ps : List (String × String)) :
    sel g (p :: ps) = if p.1 = g then p.2 :: sel g ps else sel g ps := by
  by_cases h : p.1 = g <;> simp [sel, h]

/-- `sel` over an append. -/
theorem sel_append (g : String) (ps qs : List (String × String)) :
    sel g (ps ++ qs) = sel g ps ++ sel g qs := by
  simp [sel, List.filter_append]

/-- The values `insertAll` leaves at key `g`. -/
theorem alookup_insertAll (g : String) :
    ∀ (ps : List (String × String)) (acc : List (String × List String)),
      alookup g (insertAll ps acc) =
        match alookup g acc with
        | some l => some (l ++ sel g ps)
        | none => if sel g ps = [] then none else some (sel g ps) := by
  intro ps
  induction ps with
  | nil =>
    intro acc
    cases h : alookup g acc <;> simp [insertAll, sel, h]
  | cons p ps ih =>
    intro acc
    rw [insertAll, ih, alookup_addToGroup, sel_cons]
    by_cases hp : p.1 = g
    · simp only [if_pos hp]
      cases h : alookup g acc <;> simp [h]
    · simp only [if_neg hp]

/-- `dedupFO'` only depends on membership in `seen`. -/
theorem dedupFO'_congr (l : List String) :
    ∀ seen₁ seen₂, (∀ a, a ∈ seen₁ ↔ a ∈ seen₂) →
      dedupFO' seen₁ l = dedupFO' seen₂ l := by
  induction l with
  | nil => intro _ _ _; simp [dedupFO']
  | cons x xs ih =>
    intro seen₁ seen₂ hmem
    by_cases hx : x ∈ seen₁
    · simp [dedupFO', hx, (hmem x).mp hx, ih seen₁ seen₂ hmem]
    · have hx₂ : x ∉ seen₂ := fun h => hx ((hmem x).mpr h)
      simp only [dedupFO', if_neg hx, if_neg hx₂]
      rw [ih (x :: seen₁) (x :: seen₂) (by intro a; simp [hmem a])]

/-- The keys `insertAll` produces: the old keys followed by unseen event
keys in first-appearance order. -/
theorem dkeys_insertAll :
    ∀ (ps : List (String × String)) (acc : List (String × List String)),
      dkeys (insertAll ps acc) = dkeys acc ++ dedupFO' (dkeys acc) (ps.map Prod.fst) := by
  intro ps
  induction ps with
  | nil => intro acc; simp [insertAll, dedupFO']
  | cons p ps ih =>
    intro acc
    rw [insertAll, ih, dkeys_addToGroup]
    by_cases hp : p.1 ∈ dkeys acc
    · simp [hp, dedupFO']
    · simp only [if_neg hp, List.map_cons, dedupFO', if_neg hp]
      rw [List.append_assoc, List.singleton_append]
      congr 1
      congr 1
      exact dedupFO'_congr _ _ _ (by intro a; simp [List.mem_append, Or.comm])

/-- The event keys are the flattened group lists. -/
theorem groupPairs_map_fst (hosts : List Host) :
    (groupPairs hosts).map Prod.fst = hosts.flatMap Host.groups := by
  simp only [groupPairs, List.map_flatMap, List.map_map]
  congr 1
  funext a
  have hid : (Prod.fst ∘ fun g : String => (g, a.fqdn)) = id := rfl
  rw [hid, List.map_id]

/-- `sel` over the events of a single host. -/
theorem sel_map_pair (g f : String) (gs : List String) :
    sel g (gs.map (fun g' => (g', f))) =
      (gs.filter (fun g' => g' = g)).map (fun _ => f) := by
  induction gs with
  | nil => simp [sel]
  | cons g₀ gs ih =>
    by_cases h : g₀ = g
    · simp [sel_cons, h, List.filter_cons, ih]
    · simp [sel_cons, h, List.filter_cons, ih]

/-- `sel` over all events equals the member sequence. -/
theorem sel_groupPairs (g : String) (hosts : List Host) :
    sel g (groupPairs hosts) = memberSeq g hosts := by
  induction hosts with
  | nil => simp [sel, groupPairs, memberSeq]
  | cons h hs ih =>
    simp only [groupPairs, memberSeq, List.flatMap_cons] at ih ⊢
    rw [sel_append, ih, sel_map_pair]

/-- Members of group `g` in `build_groups`: the member sequence, with the
empty sequence meaning no entry at all. -/
theorem alookup_build_groups (hosts : List Host) (g : String) :
    alookup g (build_groups hosts) =
      if memberSeq g hosts = [] then none else some (memberSeq g hosts) := by
  rw [build_groups_eq, alookup_insertAll, sel_groupPairs]
  simp [alookup]

/-- Keys of `build_groups`: first-appearance order of the flattened group
lists. -/
theorem dkeys_build_groups (hosts : List Host) :
    dkeys (build_groups hosts) = dedupFO (hosts.flatMap Host.groups) := by
  rw [build_groups_eq, dkeys_insertAll]
  simp only [dkeys, List.map_nil, List.nil_append]
  rw [groupPairs_map_fst]
  rfl

/-- Everything `dedupFO'` outputs avoids `seen` and is duplicate-free. -/
theorem dedupFO'_nodup_and_fresh (l : List String) :
    ∀ seen, (dedupFO' seen l).Nodup ∧ ∀ a ∈ dedupFO' seen l, a ∉ seen := by
  induction l with
  | nil => intro seen; simp [dedupFO']
  | cons x xs ih =>
    intro seen
    by_cases hx : x ∈ seen
    · simpa [dedupFO', hx] using ih seen
    · obtain ⟨hnd, hfresh⟩ := ih (x :: seen)
      refine ⟨?_, ?_⟩
      · simp only [dedupFO', if_neg hx, List.nodup_cons]
        exact ⟨fun hmem => (hfresh x hmem) (List.mem_cons_self x seen), hnd⟩
      · intro a ha
        simp only [dedupFO', if_neg hx, List.mem_cons] at ha
        rcases ha with rfl | ha
        · exact hx
        · exact fun hs => (hfresh a ha) (List.mem_cons_of_mem x hs)

/-- `dedupFO` output has no duplicates. -/
theorem dedupFO_nodup (l : List String) : (dedupFO l).Nodup :=
  (dedupFO'_nodup_and_fresh l []).1

/-- The keys of `build_groups` have no duplicates. -/
theorem dkeys_build_groups_nodup (hosts : List Host) :
    (dkeys (build_groups hosts)).Nodup := by
  rw [dkeys_build_groups]; exact dedupFO_nodup _

/-- Membership in the member sequence names a host of the input. -/
theorem mem_memberSeq (g x : String) (hosts : List Host) :
    x ∈ memberSeq g hosts ↔ ∃ h ∈ hosts, h.fqdn = x ∧ g ∈ h.groups := by
  simp only [memberSeq, List.mem_flatMap, List.mem_map, List.mem_filter]
  constructor
  · rintro ⟨h, hh, ⟨g', ⟨hg', hgg⟩, hfq⟩⟩
    have hgeq : g' = g := of_decide_eq_true hgg
    exact ⟨h, hh, hfq, hgeq ▸ hg'⟩
  · rintro ⟨h, hh, hfq, hg⟩
    exact ⟨h, hh, ⟨g, ⟨hg, by simp⟩, hfq⟩⟩

/-! ## Lemmas: `build_hostvars` and `process_hosts` -/

/-- The `build_hostvars` fold with an accumulator whose keys avoid the
remaining fqdns. -/
theorem build_hostvars_aux (hosts : List Host) :
    ∀ acc, (∀ h ∈ hosts, h.fqdn ∉ dkeys acc) → (hosts.map Host.fqdn).Nodup →
      hosts.foldl (fun acc' h => dictInsert h.fqdn (hostvarsOf h) acc') acc =
        acc ++ hosts.map (fun h => (h.fqdn, hostvarsOf h)) := by
  induction hosts with
  | nil => intro acc _ _; simp
  | cons h hs ih =>
    intro acc hdisj hnd
    rw [List.map_cons, List.nodup_cons] at hnd
    simp only [List.foldl_cons]
    rw [dictInsert_of_notMem _ _ _ (hdisj h (List.mem_cons_self h hs))]
    rw [ih (acc ++ [(h.fqdn, hostvarsOf h)]) ?_ hnd.2]
    · simp
    · intro h' hh'
      rw [dkeys_append, List.mem_append]
      push_neg
      refine ⟨hdisj h' (List.mem_cons_of_mem h hh'), ?_⟩
      intro hc
      simp only [dkeys, List.map_cons, List.map_nil, List.mem_singleton] at hc
      exact hnd.1 (hc ▸ List.mem_map_of_mem Host.fqdn hh')

/-- With unique fqdns, `build_hostvars` is one entry per host in input
order. -/
theorem build_hostvars_eq_map (hosts : List Host) (hnd : (hosts.map Host.fqdn).Nodup) :
    build_hostvars hosts = hosts.map (fun h => (h.fqdn, hostvarsOf h)) := by
  simpa using build_hostvars_aux hosts [] (by simp [dkeys]) hnd

/-- With unique fqdns, each host's fqdn is counted exactly once among the
hosts. -/
theorem countP_fqdn_eq_one (hosts : List Host) (hnd : (hosts.map Host.fqdn).Nodup)
    (h : Host) (hm : h ∈ hosts) :
    hosts.countP (fun h' => h'.fqdn = h.fqdn) = 1 := by
  induction hosts with
  | nil => simp at hm
  | cons h₀ hs ih =>
    rw [List.map_cons, List.nodup_cons] at hnd
    rw [List.countP_cons]
    rcases List.mem_cons.mp hm with rfl | hmem
    · have hz : hs.countP (fun h' => h'.fqdn = h.fqdn) = 0 := by
        rw [List.countP_eq_zero]
        intro h' hh' hc
        have : h'.fqdn = h.fqdn := of_decide_eq_true hc
        exact hnd.1 (this ▸ List.mem_map_of_mem Host.fqdn hh')
      simp [hz]
    · have hne : ¬ h₀.fqdn = h.fqdn := by
        intro hc
        exact hnd.1 (hc ▸ List.mem_map_of_mem Host.fqdn hmem)
      simp [hne, ih hnd.2 hmem]

/-- Every input row shows up, normalized, in a successful
`process_hosts`. -/
theorem process_hosts_mem (rows : List Row) (hosts : List Host) (row : Row)
    (hp : process_hosts rows = some hosts) (hr : row ∈ rows) :
    ∃ h ∈ hosts, mkHost row = some h := by
  induction rows generalizing hosts with
  | nil => simp at hr
  | cons r rs ih =>
    rw [process_hosts] at hp
    rcases hmk : mkHost r with _ | h₀ <;> rw [hmk] at hp
    · exact absurd hp (by simp)
    · rcases hps : process_hosts rs with _ | hs' <;> rw [hps] at hp
      · exact absurd hp (by simp)
      · have hhosts : hosts = h₀ :: hs' := by
          have := hp
          simp at this
          exact this.symm
        subst hhosts
        rcases List.mem_cons.mp hr with rfl | hmem
        · exact ⟨h₀, List.mem_cons_self _ _, hmk⟩
        · obtain ⟨h, hh, hhm⟩ := ih hs' hps hmem
          exact ⟨h, List.mem_cons_of_mem _ hh, hhm⟩

/-- Every normalized host of a successful `process_hosts` comes from some
input row. -/
theorem process_hosts_sources (rows : List Row) (hosts : List Host)
    (hp : process_hosts rows = some hosts) :
    ∀ h ∈ hosts, ∃ row ∈ rows, mkHost row = some h := by
  induction rows generalizing hosts with
  | nil =>
    rw [process_hosts] at hp
    have : hosts = [] := by
      simp at hp
      exact hp ▸ rfl
    subst this
    intro h hh
    simp at hh
  | cons r rs ih =>
    rw [process_hosts] at hp
    rcases hmk : mkHost r with _ | h₀ <;> rw [hmk] at hp
    · exact absurd hp (by simp)
    · rcases hps : process_hosts rs with _ | hs' <;> rw [hps] at hp
      · exact absurd hp (by simp)
      · have hhosts : hosts = h₀ :: hs' := by simp at hp; exact hp.symm
        subst hhosts
        intro h hh
        rcases List.mem_cons.mp hh with rfl | hmem
        · exact ⟨r, List.mem_cons_self _ _, hmk⟩
        · obtain ⟨row, hrow, hrm⟩ := ih hs' hps h hmem
          exact ⟨row, List.mem_cons_of_mem _ hrow, hrm⟩

/-- A normalized host keeps the row's fqdn. -/
theorem mkHost_fqdn (row : Row) (h : Host) (hm : mkHost row = some h) :
    h.fqdn = row.fqdn := by
  simp only [mkHost, Option.map_eq_some'] at hm
  obtain ⟨a, _, rfl⟩ := hm
  rfl

/-- A normalized host records the parsed address object. -/
theorem mkHost_ipaddr (row : Row) (h : Host) (hm : mkHost row = some h) :
    ipParse row.ipaddr = some h.ipaddr := by
  simp only [mkHost, Option.map_eq_some'] at hm
  obtain ⟨a, ha, rfl⟩ := hm
  exact ha

/-- Null or empty `groups` normalizes to the empty list. -/
theorem mkHost_groups_empty (row : Row) (h : Host) (hm : mkHost row = some h)
    (hg : row.groups = none ∨ row.groups = some "") : h.groups = [] := by
  simp only [mkHost, Option.map_eq_some'] at hm
  obtain ⟨a, _, rfl⟩ := hm
  rcases hg with hg | hg <;> simp [hg, optTruthy]

/-- Non-empty `groups` normalizes to the verbatim comma split. -/
theorem mkHost_groups_split (row : Row) (h : Host) (s : String)
    (hm : mkHost row = some h) (hg : row.groups = some s) (hs : s ≠ "") :
    h.groups = pySplit ',' s := by
  simp only [mkHost, Option.map_eq_some'] at hm
  obtain ⟨a, _, rfl⟩ := hm
  simp [hg, optTruthy, hs]

/-- Non-empty `features` normalizes to the verbatim comma split. -/
theorem mkHost_features_split (row : Row) (h : Host) (s : String)
    (hm : mkHost row = some h) (hf : row.features = some s) (hs : s ≠ "") :
    h.features = pySplit ',' s := by
  simp only [mkHost, Option.map_eq_some'] at hm
  obtain ⟨a, _, rfl⟩ := hm
  simp [hf, optTruthy, hs]

/-! ## Lemmas: the exploded IPv6 form -/

/-- Digit-count bound for the fuel-driven hex renderer. -/
theorem hexChars'_length : ∀ (fuel : Nat), ∀ (n : Nat) (acc : List Char) (j : Nat),
    1 ≤ j → n < 16 ^ j → j ≤ fuel →
    (hexChars' fuel n acc).length ≤ j + acc.length := by
  intro fuel
  induction fuel with
  | zero => intro n acc j h1 _ h3; omega
  | succ fuel ih =>
    intro n acc j h1 h2 h3
    by_cases hn : n < 16
    · simp only [hexChars', if_pos hn, List.length_cons]
      omega
    · have hj : 2 ≤ j := by
        rcases Nat.lt_or_ge j 2 with hlt | hge
        · have : j = 1 := by omega
          subst this
          simp at h2
          omega
        · exact hge
      simp only [hexChars', if_neg hn]
      have hdiv : n / 16 < 16 ^ (j - 1) := by
        have hpow : (16 : Nat) ^ j = 16 ^ (j - 1) * 16 := by
          rw [← pow_succ]
          congr 1
          omega
        rw [Nat.div_lt_iff_lt_mul (by norm_num)]
        omega
      have key : ∀ c : Char, (hexChars' fuel (n / 16) (c :: acc)).length ≤ j + acc.length := by
        intro c
        have := ih (n / 16) (c :: acc) (j - 1) (by omega) hdiv (by omega)
        simp only [List.length_cons] at this
        omega
      exact key _

/-- Hextet values render in at most four hex digits. -/
theorem hexChars_length_le_four (n : Nat) (h : n < 65536) : (hexChars n).length ≤ 4 := by
  by_cases hn : n < 16
  · simp only [hexChars, hexChars', if_pos hn, List.length_cons, List.length_nil]
    omega
  · have := hexChars'_length (n + 1) n [] 4 (by omega) (by norm_num; omega) (by omega)
    simpa [hexChars] using this

/-- Padded hextets are exactly four characters. -/
theorem padHex4_length (n : Nat) (h : n < 65536) : (padHex4 n).length = 4 := by
  have hle := hexChars_length_le_four n h
  simp only [padHex4, String.length]
  show (List.replicate (4 - (hexChars n).length) '0' ++ hexChars n).length = 4
  rw [List.length_append, List.length_replicate]
  omega

/-- The exploded IPv6 form has exactly eight groups. -/
theorem explode6Parts_length (n : Nat) : (explode6Parts n).length = 8 := by
  simp [explode6Parts]

/-- Every group of the exploded IPv6 form is exactly four characters. -/
theorem explode6Parts_each_length (n : Nat) :
    ∀ p ∈ explode6Parts n, p.length = 4 := by
  intro p hp
  simp only [explode6Parts, List.mem_map, List.mem_range] at hp
  obtain ⟨i, _, rfl⟩ := hp
  exact padHex4_length _ (Nat.mod_lt _ (by norm_num))

/-! ## Lemmas: sorting -/

/-- `sortStrings` output is sorted under the Python string order. -/
theorem sortStrings_sorted (l : List String) : List.Sorted pyLeR (sortStrings l) :=
  @List.sorted_insertionSort String pyLeR inferInstance
    ⟨fun a b => lexLe_total a.data b.data⟩
    ⟨fun a b c hab hbc => lexLe_trans a.data b.data c.data hab hbc⟩ l

/-- `sortStrings` output is a permutation of its input. -/
theorem sortStrings_perm (l : List String) : (sortStrings l).Perm l :=
  List.perm_insertionSort pyLeR l

/-- Sorting identifies permuted inputs. -/
theorem sortStrings_eq_of_perm (l₁ l₂ : List String) (h : l₁.Perm l₂) :
    sortStrings l₁ = sortStrings l₂ :=
  @List.eq_of_perm_of_sorted String pyLeR
    ⟨fun a b hab hba => String.ext (lexLe_antisymm a.data b.data hab hba)⟩
    _ _ ((sortStrings_perm l₁).trans (h.trans (sortStrings_perm l₂).symm))
    (sortStrings_sorted l₁) (sortStrings_sorted l₂)

/-! ## Lemmas: host uniqueness and the host-subset fold -/

/-- With unique fqdns, two member hosts with the same fqdn coincide. -/
theorem nodup_fqdn_inj (hosts : List Host) (hnd : (hosts.map Host.fqdn).Nodup)
    (h₁ h₂ : Host) (hm₁ : h₁ ∈ hosts) (hm₂ : h₂ ∈ hosts) (he : h₁.fqdn = h₂.fqdn) :
    h₁ = h₂ := by
  induction hosts with
  | nil => simp at hm₁
  | cons h hs ih =>
    rw [List.map_cons, List.nodup_cons] at hnd
    rcases List.mem_cons.mp hm₁ with rfl | hm₁' <;> rcases List.mem_cons.mp hm₂ with rfl | hm₂'
    · rfl
    · exfalso
      have : h₁.fqdn ∈ hs.map Host.fqdn := by
        rw [he]
        exact List.mem_map_of_mem Host.fqdn hm₂'
      exact hnd.1 this
    · exfalso
      have : h₂.fqdn ∈ hs.map Host.fqdn := by
        rw [← he]
        exact List.mem_map_of_mem Host.fqdn hm₁'
      exact hnd.1 this
    · exact ih hnd.2 hm₁' hm₂'

/-- The `get host` subset loop: with valid lookups and fresh distinct keys
it collects one entry per selected host, in order. -/
theorem foldlM_collect (hostvars : List (String × HostVars)) :
    ∀ (l : List Host) (acc : List (String × HostVars)),
      (∀ h ∈ l, alookup h.fqdn hostvars = some (hostvarsOf h)) →
      (l.map Host.fqdn).Nodup →
      (∀ h ∈ l, h.fqdn ∉ dkeys acc) →
      (l.map Host.fqdn).foldlM
          (fun acc' f => (alookup f hostvars).map (fun v => dictInsert f v acc')) acc =
        some (acc ++ l.map (fun h => (h.fqdn, hostvarsOf h))) := by
  intro l
  induction l with
  | nil => intro acc _ _ _; simp
  | cons h hs ih =>
    intro acc hlook hnod hdisj
    rw [List.map_cons, List.nodup_cons] at hnod
    rw [List.map_cons, List.foldlM_cons]
    rw [hlook h (List.mem_cons_self h hs)]
    simp only [Option.map_some']
    rw [dictInsert_of_notMem _ _ _ (hdisj h (List.mem_cons_self h hs))]
    show (hs.map Host.fqdn).foldlM _ (acc ++ [(h.fqdn, hostvarsOf h)]) = _
    rw [ih (acc ++ [(h.fqdn, hostvarsOf h)])
        (fun h' hh' => hlook h' (List.mem_cons_of_mem h hh'))
        hnod.2 ?_]
    · simp
    · intro h' hh'
      rw [dkeys_append, List.mem_append]
      push_neg
      refine ⟨hdisj h' (List.mem_cons_of_mem h hh'), ?_⟩
      intro hc
      simp only [dkeys, List.map_cons, List.map_nil, List.mem_singleton] at hc
      exact hnod.1 (hc ▸ List.mem_map_of_mem Host.fqdn hh')

/-- Lookup in `build_hostvars` succeeds for every member host when fqdns
are unique. -/
theorem alookup_build_hostvars (hosts : List Host) (hnd : (hosts.map Host.fqdn).Nodup)
    (h : Host) (hm : h ∈ hosts) :
    alookup h.fqdn (build_hostvars hosts) = some (hostvarsOf h) := by
  rw [build_hostvars_eq_map hosts hnd]
  have hkeys : (dkeys (hosts.map (fun h' => (h'.fqdn, hostvarsOf h')))).Nodup := by
    have : dkeys (hosts.map (fun h' => (h'.fqdn, hostvarsOf h'))) = hosts.map Host.fqdn := by
      simp [dkeys, List.map_map]
    rw [this]
    exact hnd
  exact alookup_of_mem_nodup _ (h.fqdn, hostvarsOf h) hkeys
    (List.mem_map_of_mem (fun h' => (h'.fqdn, hostvarsOf h')) hm)

/-! ## The claims -/

/-- Claim C5: for every Host, the `upd` attribute in the hostvars mapping
is rendered as a timestamp string in the format `YYYY-DD-MM HH:MM:SS`,
with the day field preceding the month field (not ISO ordering). -/
theorem upd_rendered_year_day_month (h : Host) :
    (hostvarsOf h).upd =
      padNum 4 h.upd.year ++ "-" ++ padNum 2 h.upd.day ++ "-" ++ padNum 2 h.upd.month ++ " " ++
      padNum 2 h.upd.hour ++ ":" ++ padNum 2 h.upd.minute ++ ":" ++ padNum 2 h.upd.second := by
  simp [hostvarsOf, strftime, strftimeGo, strfDirective, String.append_assoc]

/-- Claim C6: for every sequence of Hosts, each group of `build_groups`
lists member fqdns in host input order (one occurrence per occurrence of
the group in the host's `groups` list), and the group keys appear in
first-appearance insertion order. -/
theorem build_groups_insertion_order (hosts : List Host) :
    (∀ g, alookup g (build_groups hosts) =
      if memberSeq g hosts = [] then none else some (memberSeq g hosts)) ∧
    dkeys (build_groups hosts) = dedupFO (hosts.flatMap Host.groups) :=
  ⟨fun g => alookup_build_groups hosts g, dkeys_build_groups hosts⟩

/-- Claim C9: `build_ansible_inventory` maps `_meta` to the hostvars
mapping unconditionally — a group literally named `_meta` is overwritten —
and every other key keeps the group mapping's entry. -/
theorem build_ansible_inventory_meta_wins (groups : List (String × List String))
    (hostvars : List (String × HostVars)) :
    alookup "_meta" (build_ansible_inventory groups hostvars) = some (.meta hostvars) ∧
    ∀ g, g ≠ "_meta" →
      alookup g (build_ansible_inventory groups hostvars) =
        (alookup g groups).map InvEntry.group := by
  constructor
  · rw [build_ansible_inventory, alookup_dictInsert]
    simp
  · intro g hg
    rw [build_ansible_inventory, alookup_dictInsert]
    rw [if_neg (fun hh => hg hh.symm)]
    exact alookup_map_value InvEntry.group groups g

/-- Claim C9 witness: with a group literally named `_meta`, the metadata
entry wins and other groups are preserved. -/
theorem build_ansible_inventory_meta_wins_witness :
    alookup "_meta" (build_ansible_inventory [("_meta", ["h1"]), ("web", ["h2"])] []) =
      some (.meta []) ∧
    alookup "web" (build_ansible_inventory [("_meta", ["h1"]), ("web", ["h2"])] []) =
      some (.group ["h2"]) := by
  constructor
  · exact (build_ansible_inventory_meta_wins [("_meta", ["h1"]), ("web", ["h2"])] []).1
  · rw [(build_ansible_inventory_meta_wins [("_meta", ["h1"]), ("web", ["h2"])] []).2
      "web" (by decide)]
    decide

/-- Claim C4: `get group NAME` reports not-found with exit status 1 when
`NAME` is not a key of the built group mapping, and otherwise returns that
group's member list, which is never empty. -/
theorem selectGroup_notFound_or_members (hosts : List Host) (name : String) :
    (alookup name (build_groups hosts) = none →
      selectGroup hosts name = .notFound ("No group matching " ++ name) ∧
      (selectGroup hosts name).exitStatus = 1) ∧
    (∀ ms, alookup name (build_groups hosts) = some ms →
      selectGroup hosts name = .found ms ∧
      (selectGroup hosts name).exitStatus = 0 ∧ ms ≠ []) := by
  constructor
  · intro hn
    simp [selectGroup, hn, GroupResult.exitStatus]
  · intro ms hm
    refine ⟨by simp [selectGroup, hm],
            by simp [selectGroup, hm, GroupResult.exitStatus], ?_⟩
    have hchar := alookup_build_groups hosts name
    rw [hm] at hchar
    by_cases hx : memberSeq name hosts = []
    · rw [if_pos hx] at hchar
      exact absurd hchar (by simp)
    · rw [if_neg hx] at hchar
      have hms : ms = memberSeq name hosts := by
        injection hchar
      intro hc
      exact hx (hms ▸ hc)

/-- Claim C4 witness: a one-host inventory with group `web`; `get group
missing-group` reports not-found with exit 1, `get group web` returns a
nonempty member list with exit 0. -/
theorem selectGroup_notFound_or_members_witness :
    selectGroup [⟨1, "a.example.com", ⟨2024, 1, 2, 3, 4, 5⟩, true, IPAddr.v4 167772161,
        ["web"], [], ""⟩] "missing-group" = .notFound "No group matching missing-group" ∧
    (selectGroup [⟨1, "a.example.com", ⟨2024, 1, 2, 3, 4, 5⟩, true, IPAddr.v4 167772161,
        ["web"], [], ""⟩] "missing-group").exitStatus = 1 ∧
    selectGroup [⟨1, "a.example.com", ⟨2024, 1, 2, 3, 4, 5⟩, true, IPAddr.v4 167772161,
        ["web"], [], ""⟩] "web" = .found ["a.example.com"] ∧
    (selectGroup [⟨1, "a.example.com", ⟨2024, 1, 2, 3, 4, 5⟩, true, IPAddr.v4 167772161,
        ["web"], [], ""⟩] "web").exitStatus = 0 := by
  have h₁ := (selectGroup_notFound_or_members
    [⟨1, "a.example.com", ⟨2024, 1, 2, 3, 4, 5⟩, true, IPAddr.v4 167772161, ["web"], [], ""⟩]
    "missing-group").1 (by decide)
  have h₂ := (selectGroup_notFound_or_members
    [⟨1, "a.example.com", ⟨2024, 1, 2, 3, 4, 5⟩, true, IPAddr.v4 167772161, ["web"], [], ""⟩]
    "web").2 ["a.example.com"] (by decide)
  exact ⟨h₁.1, h₁.2, h₂.1, h₂.2.1⟩

/-- Claim C10: every non-empty `groups` or `features` string is split on
`,` verbatim, with empty segments kept, so a host whose `groups` split
contains the empty string becomes a member of the group named `""` in the
group mapping. -/
theorem csv_split_verbatim_empty_group (row : Row) (h : Host)
    (hm : mkHost row = some h) :
    (∀ s, row.groups = some s → s ≠ "" → h.groups = pySplit ',' s) ∧
    (∀ s, row.features = some s → s ≠ "" → h.features = pySplit ',' s) ∧
    (∀ hosts, h ∈ hosts → "" ∈ h.groups →
      ∃ ms, alookup "" (build_groups hosts) = some ms ∧ h.fqdn ∈ ms) := by
  refine ⟨fun s hg hs => mkHost_groups_split row h s hm hg hs,
          fun s hf hs => mkHost_features_split row h s hm hf hs, ?_⟩
  intro hosts hmem hempty
  have hmm : h.fqdn ∈ memberSeq "" hosts :=
    (mem_memberSeq "" h.fqdn hosts).mpr ⟨h, hmem, rfl, hempty⟩
  have hne : memberSeq "" hosts ≠ [] := by
    intro hc
    rw [hc] at hmm
    simp at hmm
  rw [alookup_build_groups, if_neg hne]
  exact ⟨memberSeq "" hosts, rfl, hmm⟩

/-- Claim C10 witness: `groups = "a,"` splits to `["a", ""]`, `features =
"f,"` splits to `["f", ""]`, and the host lands in the group named
`""`. -/
theorem csv_split_verbatim_empty_group_witness :
    (⟨1, "a.example.com", ⟨2024, 1, 2, 3, 4, 5⟩, true, IPAddr.v4 167772161,
        ["a", ""], ["f", ""], ""⟩ : Host).groups = pySplit ',' "a," ∧
    (⟨1, "a.example.com", ⟨2024, 1, 2, 3, 4, 5⟩, true, IPAddr.v4 167772161,
        ["a", ""], ["f", ""], ""⟩ : Host).features = pySplit ',' "f," ∧
    ∃ ms, alookup "" (build_groups [⟨1, "a.example.com", ⟨2024, 1, 2, 3, 4, 5⟩, true,
        IPAddr.v4 167772161, ["a", ""], ["f", ""], ""⟩]) = some ms ∧ "a.example.com" ∈ ms := by
  have hthm := csv_split_verbatim_empty_group
    ⟨1, "a.example.com", 1, some "f,", "10.0.0.1", none, some "a,", ⟨2024, 1, 2, 3, 4, 5⟩⟩
    ⟨1, "a.example.com", ⟨2024, 1, 2, 3, 4, 5⟩, true, IPAddr.v4 167772161,
      ["a", ""], ["f", ""], ""⟩
    (by decide)
  exact ⟨hthm.1 "a," rfl (by decide), hthm.2.1 "f," rfl (by decide), hthm.2.2
    [⟨1, "a.example.com", ⟨2024, 1, 2, 3, 4, 5⟩, true, IPAddr.v4 167772161,
      ["a", ""], ["f", ""], ""⟩]
    (List.mem_singleton.mpr rfl) (by decide)⟩

/-- Claim C7: `get group --list` prints the group names sorted
lexicographically, one per line, independent of discovery order. -/
theorem groupList_sorted_lex (hosts : List Host) :
    List.Sorted pyLeR (groupListLines hosts) ∧
    (groupListLines hosts).Perm (dkeys (build_groups hosts)) ∧
    ∀ hosts', (dkeys (build_groups hosts')).Perm (dkeys (build_groups hosts)) →
      groupListLines hosts' = groupListLines hosts := by
  refine ⟨sortStrings_sorted _, sortStrings_perm _, ?_⟩
  intro hosts' hperm
  exact sortStrings_eq_of_perm _ _ hperm

/-- Claim C7 witness: `["b","a"]` discovered in that order on one host,
and the same groups discovered in the other order across two hosts, both
print `["a","b"]`. -/
theorem groupList_sorted_lex_witness :
    groupListLines [⟨1, "x.example.com", ⟨2024, 1, 2, 3, 4, 5⟩, true, IPAddr.v4 167772161,
        ["b", "a"], [], ""⟩] = ["a", "b"] ∧
    groupListLines [⟨2, "y.example.com", ⟨2024, 1, 2, 3, 4, 5⟩, true, IPAddr.v4 167772162,
          ["a"], [], ""⟩,
        ⟨3, "z.example.com", ⟨2024, 1, 2, 3, 4, 5⟩, true, IPAddr.v4 167772163,
          ["b"], [], ""⟩] =
      groupListLines [⟨1, "x.example.com", ⟨2024, 1, 2, 3, 4, 5⟩, true, IPAddr.v4 167772161,
        ["b", "a"], [], ""⟩] := by
  constructor
  · decide
  · apply (groupList_sorted_lex [⟨1, "x.example.com", ⟨2024, 1, 2, 3, 4, 5⟩, true,
        IPAddr.v4 167772161, ["b", "a"], [], ""⟩]).2.2
    have h₁ : dkeys (build_groups [⟨2, "y.example.com", ⟨2024, 1, 2, 3, 4, 5⟩, true,
        IPAddr.v4 167772162, ["a"], [], ""⟩,
        ⟨3, "z.example.com", ⟨2024, 1, 2, 3, 4, 5⟩, true, IPAddr.v4 167772163,
          ["b"], [], ""⟩]) = ["a", "b"] := by decide
    have h₂ : dkeys (build_groups [⟨1, "x.example.com", ⟨2024, 1, 2, 3, 4, 5⟩, true,
        IPAddr.v4 167772161, ["b", "a"], [], ""⟩]) = ["b", "a"] := by decide
    rw [h₁, h₂]
    exact List.Perm.swap "b" "a" []

/-- Claim C8: an `add` request with no explicit IP address whose name
fails resolution reports the error, exits non-zero, and issues no insert
statement, leaving the store unchanged. -/
theorem add_host_resolution_failure_no_insert (resolver : String → Except String String)
    (a : AddArgs) (msg : String) (hip : a.ipaddr = none)
    (hres : resolver a.name = .error msg) :
    add_host resolver a = .resolutionError ("ERROR: " ++ msg) ∧
    (add_host resolver a).exitStatus = 1 ∧
    ∀ store, applyOutcome store (add_host resolver a) = store := by
  have hmain : add_host resolver a = .resolutionError ("ERROR: " ++ msg) := by
    rw [add_host]
    simp [hip, optTruthy, hres]
  exact ⟨hmain, by rw [hmain]; rfl, fun store => by rw [hmain]; rfl⟩

/-- Claim C8 witness: an unresolvable name with no `-i` flag aborts with
the resolution error, exit status 1, and an untouched store. -/
theorem add_host_resolution_failure_no_insert_witness :
    add_host (fun _ => .error "Name or service not known")
        ⟨"nonexistent.example.com", none, none, none, none, false⟩ =
      .resolutionError "ERROR: Name or service not known" ∧
    (add_host (fun _ => .error "Name or service not known")
        ⟨"nonexistent.example.com", none, none, none, none, false⟩).exitStatus = 1 ∧
    applyOutcome ["INSERT 1"] (add_host (fun _ => .error "Name or service not known")
        ⟨"nonexistent.example.com", none, none, none, none, false⟩) = ["INSERT 1"] := by
  have hthm := add_host_resolution_failure_no_insert
    (fun _ => .error "Name or service not known")
    ⟨"nonexistent.example.com", none, none, none, none, false⟩
    "Name or service not known" rfl rfl
  exact ⟨hthm.1, hthm.2.1, hthm.2.2 ["INSERT 1"]⟩

/-- Claim C3: a row whose `ipaddr` parses is normalized to the parsed
address object, which the hostvars render in the `exploded` form; for IPv6
that form is eight colon-separated zero-padded four-digit hex groups. -/
theorem ipaddr_rendered_fully_expanded (row : Row) (h : Host)
    (hm : mkHost row = some h) :
    (hostvarsOf h).ipaddr = h.ipaddr.exploded ∧
    ipParse row.ipaddr = some h.ipaddr ∧
    ∀ n, h.ipaddr = .v6 n →
      h.ipaddr.exploded = joinSep ":" (explode6Parts n) ∧
      (explode6Parts n).length = 8 ∧
      ∀ p ∈ explode6Parts n, p.length = 4 := by
  refine ⟨rfl, mkHost_ipaddr row h hm, ?_⟩
  intro n hv
  rw [hv]
  exact ⟨rfl, explode6Parts_length n, explode6Parts_each_length n⟩

/-- Claim C3 witness: stored `"::1"` parses, and renders in hostvars as
the fully-expanded form; stored `"10.0.0.1"` renders as `"10.0.0.1"`. -/
theorem ipaddr_rendered_fully_expanded_witness :
    mkHost ⟨7, "v6.example.com", 1, none, "::1", none, none, ⟨2024, 1, 2, 3, 4, 5⟩⟩ =
      some ⟨7, "v6.example.com", ⟨2024, 1, 2, 3, 4, 5⟩, true, IPAddr.v6 1, [], [], ""⟩ ∧
    (hostvarsOf ⟨7, "v6.example.com", ⟨2024, 1, 2, 3, 4, 5⟩, true,
        IPAddr.v6 1, [], [], ""⟩).ipaddr =
      IPAddr.exploded (IPAddr.v6 1) ∧
    IPAddr.exploded (IPAddr.v6 1) = "0000:0000:0000:0000:0000:0000:0000:0001" ∧
    IPAddr.exploded (IPAddr.v4 167772161) = "10.0.0.1" := by
  refine ⟨by decide, ?_, by decide, by decide⟩
  exact (ipaddr_rendered_fully_expanded
    ⟨7, "v6.example.com", 1, none, "::1", none, none, ⟨2024, 1, 2, 3, 4, 5⟩⟩
    ⟨7, "v6.example.com", ⟨2024, 1, 2, 3, 4, 5⟩, true, IPAddr.v6 1, [], [], ""⟩
    (by decide)).1

/-- Claim C1: a row whose `groups` is null or empty yields a host that
appears in no group member list, while the hostvars mapping holds exactly
one entry under its fqdn. -/
theorem emptyGroups_isolated (rows : List Row) (hosts : List Host) (row : Row)
    (hp : process_hosts rows = some hosts) (hr : row ∈ rows)
    (hg : row.groups = none ∨ row.groups = some "")
    (hnd : (hosts.map Host.fqdn).Nodup) :
    (∀ p ∈ build_groups hosts, row.fqdn ∉ p.2) ∧
    (build_hostvars hosts).countP (fun p => p.1 = row.fqdn) = 1 := by
  obtain ⟨h, hmem, hmk⟩ := process_hosts_mem rows hosts row hp hr
  have hfq : h.fqdn = row.fqdn := mkHost_fqdn row h hmk
  have hempty : h.groups = [] := mkHost_groups_empty row h hmk hg
  constructor
  · intro p hpmem hcontra
    have hlk := alookup_of_mem_nodup (build_groups hosts) p
      (dkeys_build_groups_nodup hosts) hpmem
    rw [alookup_build_groups hosts p.1] at hlk
    by_cases hms : memberSeq p.1 hosts = []
    · rw [if_pos hms] at hlk
      exact absurd hlk (by simp)
    · rw [if_neg hms] at hlk
      have hp2 : memberSeq p.1 hosts = p.2 := by injection hlk
      rw [← hp2] at hcontra
      obtain ⟨h', hmem', hfq', hgrp'⟩ := (mem_memberSeq p.1 row.fqdn hosts).mp hcontra
      have hsame : h' = h := nodup_fqdn_inj hosts hnd h' h hmem' hmem (hfq'.trans hfq.symm)
      rw [hsame, hempty] at hgrp'
      simp at hgrp'
  · rw [build_hostvars_eq_map hosts hnd, List.countP_map]
    have hcomp : ((fun p : String × HostVars => decide (p.1 = row.fqdn)) ∘
        (fun h' : Host => (h'.fqdn, hostvarsOf h'))) =
        fun h' : Host => decide (h'.fqdn = row.fqdn) := rfl
    rw [hcomp, ← hfq]
    exact countP_fqdn_eq_one hosts hnd h hmem

/-- Claim C1 witness: two rows, one with `groups = ""`; that host is in no
group member list and has exactly one hostvars entry. -/
theorem emptyGroups_isolated_witness :
    (∀ p ∈ build_groups [⟨1, "a.example.com", ⟨2024, 1, 2, 3, 4, 5⟩, true,
        IPAddr.v4 167772161, [], [], ""⟩,
        ⟨2, "b.example.com", ⟨2024, 1, 2, 3, 4, 5⟩, true, IPAddr.v4 167772162,
          ["web"], [], ""⟩], "a.example.com" ∉ p.2) ∧
    (build_hostvars [⟨1, "a.example.com", ⟨2024, 1, 2, 3, 4, 5⟩, true,
        IPAddr.v4 167772161, [], [], ""⟩,
        ⟨2, "b.example.com", ⟨2024, 1, 2, 3, 4, 5⟩, true, IPAddr.v4 167772162,
          ["web"], [], ""⟩]).countP (fun p => p.1 = "a.example.com") = 1 :=
  emptyGroups_isolated
    [⟨1, "a.example.com", 1, none, "10.0.0.1", none, some "", ⟨2024, 1, 2, 3, 4, 5⟩⟩,
     ⟨2, "b.example.com", 1, none, "10.0.0.2", none, some "web", ⟨2024, 1, 2, 3, 4, 5⟩⟩]
    [⟨1, "a.example.com", ⟨2024, 1, 2, 3, 4, 5⟩, true, IPAddr.v4 167772161, [], [], ""⟩,
     ⟨2, "b.example.com", ⟨2024, 1, 2, 3, 4, 5⟩, true, IPAddr.v4 167772162, ["web"], [], ""⟩]
    ⟨1, "a.example.com", 1, none, "10.0.0.1", none, some "", ⟨2024, 1, 2, 3, 4, 5⟩⟩
    (by decide) (by decide) (Or.inr rfl) (by decide)

/-- Claim C2: for `NAME ≠ "all"`, `get host NAME` returns exactly the
hostvars entries whose fqdn key starts with `NAME`, and an empty mapping
(not an error) when nothing matches. -/
theorem selectHost_startsWith_filter (hosts : List Host) (name : String)
    (hname : name ≠ "all") (hnd : (hosts.map Host.fqdn).Nodup) :
    selectHost hosts name =
      some ((build_hostvars hosts).filter (fun p => pyStartsWith p.1 name)) ∧
    ((∀ h ∈ hosts, pyStartsWith h.fqdn name = false) →
      selectHost hosts name = some []) := by
  have hfm : (build_hostvars hosts).filter (fun p => pyStartsWith p.1 name) =
      (hosts.filter (fun h => pyStartsWith h.fqdn name)).map
        (fun h => (h.fqdn, hostvarsOf h)) := by
    rw [build_hostvars_eq_map hosts hnd, List.filter_map]
    rfl
  have hmain : selectHost hosts name =
      some ((hosts.filter (fun h => pyStartsWith h.fqdn name)).map
        (fun h => (h.fqdn, hostvarsOf h))) := by
    simp only [selectHost, if_neg hname]
    have hnodfl : ((hosts.filter (fun h => pyStartsWith h.fqdn name)).map Host.fqdn).Nodup :=
      List.Nodup.sublist ((List.filter_sublist hosts).map Host.fqdn) hnd
    have hlook : ∀ h ∈ hosts.filter (fun h => pyStartsWith h.fqdn name),
        alookup h.fqdn (build_hostvars hosts) = some (hostvarsOf h) :=
      fun h hh => alookup_build_hostvars hosts hnd h (List.mem_of_mem_filter hh)
    have hcollect := foldlM_collect (build_hostvars hosts)
      (hosts.filter (fun h => pyStartsWith h.fqdn name)) [] hlook hnodfl
      (by intro h _; simp [dkeys])
    simpa using hcollect
  refine ⟨hfm ▸ hmain, ?_⟩
  intro hnone
  rw [hmain]
  have hfl : hosts.filter (fun h => pyStartsWith h.fqdn name) = [] := by
    rw [List.filter_eq_nil_iff]
    intro h hh
    simp [hnone h hh]
  rw [hfl]
  rfl

/-- Claim C2 witness: hosts `web1`, `web2`, `db1`; `get host web` returns
exactly the two `web*` entries, keyed by their fqdns. -/
theorem selectHost_startsWith_filter_witness :
    selectHost [⟨1, "web1.example.com", ⟨2024, 1, 2, 3, 4, 5⟩, true, IPAddr.v4 167772161,
        [], [], ""⟩,
      ⟨2, "web2.example.com", ⟨2024, 1, 2, 3, 4, 5⟩, true, IPAddr.v4 167772162, [], [], ""⟩,
      ⟨3, "db1.example.com", ⟨2024, 1, 2, 3, 4, 5⟩, true, IPAddr.v4 167772163, [], [], ""⟩]
      "web" =
      some ((build_hostvars [⟨1, "web1.example.com", ⟨2024, 1, 2, 3, 4, 5⟩, true,
          IPAddr.v4 167772161, [], [], ""⟩,
        ⟨2, "web2.example.com", ⟨2024, 1, 2, 3, 4, 5⟩, true, IPAddr.v4 167772162, [], [], ""⟩,
        ⟨3, "db1.example.com", ⟨2024, 1, 2, 3, 4, 5⟩, true, IPAddr.v4 167772163, [], [],
          ""⟩]).filter (fun p => pyStartsWith p.1 "web")) ∧
    dkeys ((build_hostvars [⟨1, "web1.example.com", ⟨2024, 1, 2, 3, 4, 5⟩, true,
          IPAddr.v4 167772161, [], [], ""⟩,
        ⟨2, "web2.example.com", ⟨2024, 1, 2, 3, 4, 5⟩, true, IPAddr.v4 167772162, [], [], ""⟩,
        ⟨3, "db1.example.com", ⟨2024, 1, 2, 3, 4, 5⟩, true, IPAddr.v4 167772163, [], [],
          ""⟩]).filter (fun p => pyStartsWith p.1 "web")) =
      ["web1.example.com", "web2.example.com"] := by
  constructor
  · exact (selectHost_startsWith_filter
      [⟨1, "web1.example.com", ⟨2024, 1, 2, 3, 4, 5⟩, true, IPAddr.v4 167772161, [], [], ""⟩,
       ⟨2, "web2.example.com", ⟨2024, 1, 2, 3, 4, 5⟩, true, IPAddr.v4 167772162, [], [], ""⟩,
       ⟨3, "db1.example.com", ⟨2024, 1, 2, 3, 4, 5⟩, true, IPAddr.v4 167772163, [], [], ""⟩]
      "web" (by decide) (by decide)).1
  · decide
